import Mathlib

/-!
Verification of the bufplugin-go compile pipeline (`generatetest` package)
and of the `info` package, against a shallow embedding of the source.

The embedding models the Go source faithfully:
  * external collaborators (the protocompile compiler, `net/url`, the SPDX
    license table, `option.NewOptions`, `generate.NewRequest`) are parameters
    of the model, since their code lives outside this repository;
  * Go maps used purely as sets (membership only, never iterated) are
    represented as lists queried by membership;
  * linked `protoreflect.FileDescriptor` values are represented as finite
    trees; the genuine sharing of the linked graph is captured by the
    `Consistent` hypothesis (two nodes with the same path resolve to the
    same file) and acyclicity of imports by `acyclicAux`.
-/

/-- Model of descriptorpb.FileDescriptorProto restricted to the fields this
pipeline reads: GetName and GetDependency. -/
structure FileDescriptorProto where
  name : String
  dependency : List String
deriving DecidableEq, Repr

/-- Model of a linked protoreflect.FileDescriptor: its Path and its Imports,
each import resolving to another linked FileDescriptor. -/
inductive FileDescriptor where
  | mk (path : String) (imports : List FileDescriptor)

/-- Path accessor of a linked file. -/
def FileDescriptor.path : FileDescriptor → String
  | .mk p _ => p

/-- Imports accessor of a linked file. -/
def FileDescriptor.imports : FileDescriptor → List FileDescriptor
  | .mk _ i => i

/-- Model of protoutil.ProtoFromFileDescriptor: the proto of a linked file
has the file's path as name and its imports' paths, in declaration order, as
its dependency list. -/
def protoFromFileDescriptor (f : FileDescriptor) : FileDescriptorProto :=
  ⟨f.path, f.imports.map FileDescriptor.path⟩

mutual

/-- Embedding of toFileDescriptorProtoSlice (src/info/spec.go): skip the file
if its path is already in the visited set, otherwise mark it visited, add all
its imports first, then append the file's own proto. The accumulator pairs
the result slice with the soFar visited set. -/
def toFileDescriptorProtoSlice :
    FileDescriptor → List FileDescriptorProto × List String →
    List FileDescriptorProto × List String
  | .mk p imps, acc =>
    if p ∈ acc.2 then acc
    else
      let acc2 := toFileDescriptorProtoSliceList imps (acc.1, p :: acc.2)
      (acc2.1 ++ [protoFromFileDescriptor (.mk p imps)], acc2.2)

/-- The loop of fileDescriptorSetForFileDescriptors: feed each file of the
list through toFileDescriptorProtoSlice, threading the accumulator. -/
def toFileDescriptorProtoSliceList :
    List FileDescriptor → List FileDescriptorProto × List String →
    List FileDescriptorProto × List String
  | [], acc => acc
  | f :: fs, acc => toFileDescriptorProtoSliceList fs (toFileDescriptorProtoSlice f acc)

end

/-- Embedding of fileDescriptorSetForFileDescriptors (src/info/spec.go):
run the dependency-first traversal over all files starting from an empty
result slice and an empty visited set. -/
def fileDescriptorSetForFileDescriptors (files : List FileDescriptor) :
    List FileDescriptorProto :=
  (toFileDescriptorProtoSliceList files ([], [])).1

mutual

/-- A file graph is acyclic when no node repeats the path of one of its
ancestors; pending carries the ancestor paths. A successful compile by the
external compiler always yields such a graph (protobuf imports cannot be
circular). -/
def acyclicAux : List String → FileDescriptor → Bool
  | pending, .mk p imps => !pending.contains p && acyclicAuxList (p :: pending) imps

/-- acyclicAux over every file of a list, same pending set. -/
def acyclicAuxList : List String → List FileDescriptor → Bool
  | _, [] => true
  | pending, f :: fs => acyclicAux pending f && acyclicAuxList pending fs

end

mutual

/-- All nodes of a file tree: the file itself and, recursively, the nodes of
each import. -/
def FileDescriptor.nodes : FileDescriptor → List FileDescriptor
  | .mk p imps => .mk p imps :: nodesList imps

/-- All nodes of a list of file trees. -/
def nodesList : List FileDescriptor → List FileDescriptor
  | [] => []
  | f :: fs => f.nodes ++ nodesList fs

end

/-- The linked graph of a successful compile shares file identities: any two
nodes carrying the same path have the same imports (compared by path). This
captures, at the level of the tree embedding, that the external compiler
memoizes each file by canonical path. -/
def Consistent (files : List FileDescriptor) : Prop :=
  ∀ n1, n1 ∈ nodesList files → ∀ n2, n2 ∈ nodesList files →
    n1.path = n2.path →
    n1.imports.map FileDescriptor.path = n2.imports.map FileDescriptor.path

/-- The paths of every file reachable (transitively) from the given roots. -/
def allPaths (files : List FileDescriptor) : List String :=
  (nodesList files).map FileDescriptor.path

/-- The names of a proto slice, in order. -/
def protoNames (rs : List FileDescriptorProto) : List String :=
  rs.map FileDescriptorProto.name

/-- Dependency-first ordering: every dependency declared by the entry at
position i is the name of some entry at an earlier position. -/
def DepsOrdered (rs : List FileDescriptorProto) : Prop :=
  ∀ i, (h : i < rs.length) → ∀ d, d ∈ (rs.get ⟨i, h⟩).dependency →
    d ∈ protoNames (rs.take i)

/-- Split a character list on the slash separator. -/
def splitSlash (cs : List Char) : List (List Char) :=
  match cs with
  | [] => [[]]
  | c :: rest =>
    let r := splitSlash rest
    if c = '/' then [] :: r
    else
      match r with
      | [] => [[c]]
      | h :: t => (c :: h) :: t

/-- Join character-list components with the slash separator. -/
def joinSlash (comps : List (List Char)) : List Char :=
  match comps with
  | [] => []
  | [c] => c
  | c :: rest => c ++ '/' :: joinSlash rest

/-- Model of path/filepath.Clean from the Go standard library on a Unix
target: repeated separators collapse, "." elements drop, ".." cancels the
preceding non-".." element (and drops at a root), and the empty result is
".". -/
def cleanPath (path : String) : String :=
  let cs := path.data
  if cs = [] then "."
  else
    let rooted := match cs with | '/' :: _ => true | _ => false
    let comps := (splitSlash cs).filter (fun c => c ≠ [] ∧ c ≠ ['.'])
    let stack := comps.foldl
      (fun st c =>
        if c = ['.', '.'] then
          match st with
          | [] => if rooted then [] else [c]
          | top :: rest => if top = ['.', '.'] then c :: top :: rest else rest
        else c :: st) []
    let body := joinSlash stack.reverse
    if rooted then ⟨'/' :: body⟩
    else if body = [] then "." else ⟨body⟩

/-- filepath.FromSlash on a Unix target: the separator is already the slash,
so this is the identity. -/
def fromSlash (p : String) : String := p

/-- filepath.ToSlash on a Unix target: identity. -/
def toSlash (p : String) : String := p

/-- Embedding of fromSlashPaths (src/info/spec.go): Clean(FromSlash(path))
for every path. -/
def fromSlashPaths (paths : List String) : List String :=
  paths.map (fun path => cleanPath (fromSlash path))

/-- The cause of a warning collected by the reporter, as inspected by the
classifiers: errors.Is(err, parser.ErrNoSyntax), or
errors.As(err, \*linker.ErrorUnusedImport) carrying the unused import path,
or anything else. -/
inductive WarningCause where
  | noSyntax
  | unusedImport (importPath : String)
  | other
deriving DecidableEq, Repr

/-- A warning-severity reporter.ErrorWithPos: the file named by its position
and its cause. -/
structure Warning where
  filename : String
  cause : WarningCause
deriving DecidableEq, Repr

/-- Insertion into a Go map used as a string set: a no-op when the key is
already present. -/
def insertPath (s : List String) (p : String) : List String :=
  if p ∈ s then s else s ++ [p]

/-- Embedding of maybeAddSyntaxUnspecified (src/info/spec.go): record the
position's filename when the warning is ErrNoSyntax, otherwise do nothing. -/
def maybeAddSyntaxUnspecified (syntaxUnspecifiedFilePaths : List String)
    (w : Warning) : List String :=
  match w.cause with
  | .noSyntax => insertPath syntaxUnspecifiedFilePaths w.filename
  | _ => syntaxUnspecifiedFilePaths

/-- Insert an unused-import path into the per-file set of the map, creating
the file's entry when absent (mirrors the Go map-of-map insertion). -/
def updateUnusedMap (m : List (String × List String)) (k v : String) :
    List (String × List String) :=
  match m with
  | [] => [(k, [v])]
  | (k', s) :: rest =>
    if k' = k then (k', insertPath s v) :: rest else (k', s) :: updateUnusedMap rest k v

/-- Embedding of maybeAddUnusedDependency (src/info/spec.go): when the
warning is an ErrorUnusedImport, record its unused import under the
position's filename; otherwise do nothing. -/
def maybeAddUnusedDependency (filePathToUnusedDependencyFilePaths : List (String × List String))
    (w : Warning) : List (String × List String) :=
  match w.cause with
  | .unusedImport importPath => updateUnusedMap filePathToUnusedDependencyFilePaths w.filename importPath
  | _ => filePathToUnusedDependencyFilePaths

/-- Go map lookup m[k] for the map of per-file unused-import sets; a missing
key yields the nil (empty) set, exactly as the Go code reads it. -/
def lookupUnused (m : List (String × List String)) (k : String) : List String :=
  match m with
  | [] => []
  | (k', s) :: rest => if k' = k then s else lookupUnused rest k

/-- Embedding of the classification loop in compile (src/info/spec.go): one
pass over the warnings, feeding each to both classifiers. -/
def classifyWarnings (warnings : List Warning) :
    List String × List (String × List String) :=
  warnings.foldl
    (fun acc w => (maybeAddSyntaxUnspecified acc.1 w, maybeAddUnusedDependency acc.2 w))
    ([], [])

/-- Model of Go's int32 conversion applied to a natural loop index. -/
def int32OfNat (n : Nat) : Int :=
  (((n + 2 ^ 31) % 2 ^ 32 : Nat) : Int) - 2 ^ 31

/-- The index-scanning loop of
unusedDependencyIndexesForFilePathToUnusedDependencyFilePaths: walk the
dependency list in order, keeping the indexes whose path is in the unused
set. -/
def unusedIndexLoop (dependencyFilePaths : List String)
    (unusedDependencyFilePaths : List String) (i : Nat) : List Int :=
  match dependencyFilePaths with
  | [] => []
  | d :: rest =>
    if d ∈ unusedDependencyFilePaths then
      int32OfNat i :: unusedIndexLoop rest unusedDependencyFilePaths (i + 1)
    else unusedIndexLoop rest unusedDependencyFilePaths (i + 1)

/-- Embedding of
unusedDependencyIndexesForFilePathToUnusedDependencyFilePaths
(src/info/spec.go): an empty unused set short-circuits to the empty (but
present) index sequence; otherwise scan the file's own dependency list. -/
def unusedDependencyIndexesForFilePathToUnusedDependencyFilePaths
    (fileDescriptorProto : FileDescriptorProto)
    (unusedDependencyFilePaths : List String) : List Int :=
  if unusedDependencyFilePaths.length = 0 then []
  else unusedIndexLoop fileDescriptorProto.dependency unusedDependencyFilePaths 0

/-- Model of descriptorv1.FileDescriptor as populated by compile. -/
structure FileDescriptorV1 where
  fileDescriptorProto : FileDescriptorProto
  isImport : Bool
  isSyntaxUnspecified : Bool
  unusedDependency : List Int
deriving DecidableEq, Repr

/-- Modelled from the spec: the error classes of the external compiler
(protocompile), which is not part of this repository — an unresolvable
file yields ImportNotFoundError, an unresolvable symbol reference a link
error, and the compile then aborts with that error. -/
inductive CompilerErr where
  | importNotFound (path : String)
  | linkError (message : String)
  | otherFailure (message : String)
deriving DecidableEq, Repr

/-- Outcome of the external compiler invocation: an error, or the linked
files for the requested paths together with the warnings accumulated by the
reporter callback, in report order. -/
inductive CompileOutcome where
  | failure (e : CompilerErr)
  | success (files : List FileDescriptor) (warnings : List Warning)

/-- A Go error value as returned by this package: either an errors.New-style
message or an error propagated from the external compiler. -/
inductive GoErr where
  | message (text : String)
  | compiler (e : CompilerErr)
deriving DecidableEq, Repr

/-- The annotation loop of compile (src/info/spec.go): each proto of the
descriptor set becomes a descriptorv1.FileDescriptor whose IsImport is the
negation of membership in the requested-path set, whose IsSyntaxUnspecified
is membership in the classified set, and whose UnusedDependency comes from
scanning its own dependency list against its classified unused set. -/
def annotateFileDescriptors
    (toSlashFilePathSet : List String)
    (syntaxUnspecifiedFilePaths : List String)
    (filePathToUnusedDependencyFilePaths : List (String × List String))
    (protos : List FileDescriptorProto) : List FileDescriptorV1 :=
  protos.map (fun fileDescriptorProto =>
    { fileDescriptorProto := fileDescriptorProto
      isImport := !toSlashFilePathSet.contains fileDescriptorProto.name
      isSyntaxUnspecified := syntaxUnspecifiedFilePaths.contains fileDescriptorProto.name
      unusedDependency := unusedDependencyIndexesForFilePathToUnusedDependencyFilePaths
        fileDescriptorProto
        (lookupUnused filePathToUnusedDependencyFilePaths fileDescriptorProto.name) })

/-- Embedding of compile (src/info/spec.go). The external compiler is a
parameter, invoked on the normalized dir and file paths; on failure its
error is returned with a nil descriptor slice; on success the warnings are
classified, the linked files are flattened dependency-first, and each proto
is annotated. -/
def compile
    (compilerCompile : List String → List String → CompileOutcome)
    (dirPaths filePaths : List String) :
    Option (List FileDescriptorV1) × Option GoErr :=
  let dirPathsClean := fromSlashPaths dirPaths
  let filePathsClean := fromSlashPaths filePaths
  let toSlashFilePathSet := filePathsClean.map toSlash
  match compilerCompile dirPathsClean filePathsClean with
  | .failure e => (none, some (.compiler e))
  | .success files warnings =>
    let classified := classifyWarnings warnings
    let fdSet := fileDescriptorSetForFileDescriptors files
    (some (annotateFileDescriptors toSlashFilePathSet classified.1 classified.2 fdSet), none)

/-- Model of generatetest.ProtoFileSpec. -/
structure ProtoFileSpec where
  DirPaths : List String
  FilePaths : List String
deriving DecidableEq, Repr

/-- Embedding of validateProtoFileSpec (src/info/spec.go). -/
def validateProtoFileSpec (protoFileSpec : ProtoFileSpec) : Option GoErr :=
  if protoFileSpec.DirPaths.length = 0 then
    some (.message "no DirPaths specified on ProtoFileSpec")
  else if protoFileSpec.FilePaths.length = 0 then
    some (.message "no FilePaths specified on ProtoFileSpec")
  else none

/-- Embedding of (\*ProtoFileSpec).ToFileDescriptors (src/info/spec.go); the
nil receiver is the none case and returns nil, nil before validation. -/
def ToFileDescriptors
    (compilerCompile : List String → List String → CompileOutcome)
    (p : Option ProtoFileSpec) : Option (List FileDescriptorV1) × Option GoErr :=
  match p with
  | none => (none, none)
  | some protoFileSpec =>
    match validateProtoFileSpec protoFileSpec with
    | some e => (none, some e)
    | none => compile compilerCompile protoFileSpec.DirPaths protoFileSpec.FilePaths

/-- Model of generatetest.RequestSpec; Options models map[string]any as an
association list. -/
structure RequestSpec where
  Files : Option ProtoFileSpec
  Options : List (String × String)
deriving DecidableEq, Repr

/-- Embedding of (\*RequestSpec).ToRequest (src/info/spec.go); the external
option.NewOptions and generate.NewRequest are parameters; the nil receiver
is the none case and returns nil, nil. -/
def ToRequest {α ρ : Type}
    (newOptions : List (String × String) → Except GoErr α)
    (compilerCompile : List String → List String → CompileOutcome)
    (newRequest : Option (List FileDescriptorV1) → α → Except GoErr ρ)
    (r : Option RequestSpec) : Option ρ × Option GoErr :=
  match r with
  | none => (none, none)
  | some requestSpec =>
    match requestSpec.Files with
    | none => (none, some (.message "RequestSpec.Files not set"))
    | some files =>
      match newOptions requestSpec.Options with
      | .error e => (none, some e)
      | .ok options =>
        match ToFileDescriptors compilerCompile (some files) with
        | (_, some e) => (none, some e)
        | (fileDescriptors, none) =>
          match newRequest fileDescriptors options with
          | .error e => (none, some e)
          | .ok request => (some request, none)

/-- Model of info.Spec (src/info/spec.go). -/
structure Spec where
  URL : String
  SPDXLicenseID : String
  LicenseText : String
  LicenseURL : String
  DocShort : String
  DocLong : String
deriving DecidableEq, Repr

/-- Embedding of validateSpecAbsoluteURL (src/info/spec.go): the external
net/url.Parse is the urlParseHost parameter, yielding either a parse error
or the parsed URL's Host field. -/
def validateSpecAbsoluteURL (urlParseHost : String → Except String String)
    (urlString : String) : Option GoErr :=
  match urlParseHost urlString with
  | .error e => some (.message ("invalid URL: " ++ e))
  | .ok host =>
    if host = "" then some (.message ("invalid URL: must be absolute: " ++ urlString))
    else none

/-- Embedding of ValidateSpec (src/info/spec.go); the external SPDX license
table is the spdxHasLicenseID parameter. -/
def ValidateSpec (urlParseHost : String → Except String String)
    (spdxHasLicenseID : String → Bool) (spec : Spec) : Option GoErr :=
  match (if spec.URL = "" then none else validateSpecAbsoluteURL urlParseHost spec.URL) with
  | some e => some e
  | none =>
    if spec.SPDXLicenseID ≠ "" ∧ spdxHasLicenseID spec.SPDXLicenseID = false then
      some (.message ("invalid SPDXLicenseID: " ++ spec.SPDXLicenseID))
    else if spec.LicenseText ≠ "" ∧ spec.LicenseURL ≠ "" then
      some (.message "only one of LicenseText and LicenseURL can be set")
    else
      match (if spec.LicenseURL = "" then none
             else validateSpecAbsoluteURL urlParseHost spec.LicenseURL) with
      | some e => some e
      | none =>
        if spec.DocShort = "" ∧ spec.DocLong ≠ "" then
          some (.message "DocShort is empty while DocLong is not empty")
        else none

/-- Placeholder for the info.Info interface value; InfoForSpec never
constructs one. -/
structure Info where
  url : Option String
deriving DecidableEq, Repr

/-- Embedding of InfoForSpec (src/unnamed/part_000): validation failures are
returned; on successful validation the function still returns a nil Info
with errors.New("TODO"). -/
def InfoForSpec (urlParseHost : String → Except String String)
    (spdxHasLicenseID : String → Bool) (spec : Spec) : Option Info × Option GoErr :=
  match ValidateSpec urlParseHost spdxHasLicenseID spec with
  | some e => (none, some e)
  | none => (none, some (.message "TODO"))

/-- Invariant threaded through the dependency-first traversal. P lists the
paths of the files currently on the recursion stack (marked visited but not
yet emitted): the visited set is exactly the emitted names together with P;
emitted names and P are mutually distinct; the emitted protos are
dependency-first so far; every emitted file has all its imports emitted (for
every node carrying its path); and every emitted proto is the proto of some
reachable node. -/
structure TravInv (files : List FileDescriptor) (P : List String)
    (acc : List FileDescriptorProto × List String) : Prop where
  mem_iff : ∀ q, q ∈ acc.2 ↔ q ∈ protoNames acc.1 ∨ q ∈ P
  nodup : (protoNames acc.1 ++ P).Nodup
  ordered : DepsOrdered acc.1
  closed : ∀ pr, pr ∈ acc.1 → ∀ n, n ∈ nodesList files → n.path = pr.name →
    ∀ g, g ∈ n.imports → g.path ∈ protoNames acc.1
  inRange : ∀ pr, pr ∈ acc.1 → ∃ n, n ∈ nodesList files ∧ pr = protoFromFileDescriptor n

/-- What one traversal step guarantees for a file of the linked graph: it
preserves the invariant, only appends to the result, only grows the visited
set, and leaves the file's path visited. -/
def VisitSpec (files : List FileDescriptor) (f : FileDescriptor) : Prop :=
  ∀ P acc, f ∈ nodesList files → acyclicAux P f = true → TravInv files P acc →
    TravInv files P (toFileDescriptorProtoSlice f acc) ∧
    (∃ t, (toFileDescriptorProtoSlice f acc).1 = acc.1 ++ t) ∧
    (∀ q, q ∈ acc.2 → q ∈ (toFileDescriptorProtoSlice f acc).2) ∧
    f.path ∈ (toFileDescriptorProtoSlice f acc).2

/-! ### Helper lemmas about the classifier structures -/

theorem mem_insertPath (s : List String) (v q : String) :
    q ∈ insertPath s v ↔ q ∈ s ∨ q = v := by
  by_cases hv : v ∈ s
  · rw [insertPath, if_pos hv]
    constructor
    · exact fun h => Or.inl h
    · rintro (h | rfl)
      · exact h
      · exact hv
  · rw [insertPath, if_neg hv]
    simp

theorem nodup_insertPath (s : List String) (v : String) (h : s.Nodup) :
    (insertPath s v).Nodup := by
  by_cases hv : v ∈ s
  · rw [insertPath, if_pos hv]; exact h
  · rw [insertPath, if_neg hv]
    simp [List.nodup_append, h, hv]

theorem lookupUnused_updateUnusedMap_self (k v : String) :
    ∀ m : List (String × List String),
      lookupUnused (updateUnusedMap m k v) k = insertPath (lookupUnused m k) v := by
  intro m
  induction m with
  | nil => simp [updateUnusedMap, lookupUnused, insertPath]
  | cons kv rest ih =>
    obtain ⟨k', s⟩ := kv
    by_cases hk : k' = k
    · subst hk
      rw [updateUnusedMap, if_pos rfl, lookupUnused, if_pos rfl, lookupUnused, if_pos rfl]
    · rw [updateUnusedMap, if_neg hk, lookupUnused, if_neg hk, lookupUnused, if_neg hk, ih]

theorem lookupUnused_updateUnusedMap_other (k v q : String) (hq : q ≠ k) :
    ∀ m : List (String × List String),
      lookupUnused (updateUnusedMap m k v) q = lookupUnused m q := by
  intro m
  induction m with
  | nil =>
    have hk : ¬ (k = q) := fun h => hq h.symm
    simp [updateUnusedMap, lookupUnused, hk]
  | cons kv rest ih =>
    obtain ⟨k', s⟩ := kv
    by_cases hk : k' = k
    · subst hk
      rw [updateUnusedMap, if_pos rfl, lookupUnused, if_neg (fun h : k' = q => hq h.symm),
        lookupUnused, if_neg (fun h : k' = q => hq h.symm)]
    · rw [updateUnusedMap, if_neg hk, lookupUnused, lookupUnused, ih]

theorem mem_foldl_maybeAddUnusedDependency (f q : String) :
    ∀ (warnings : List Warning) (m : List (String × List String)),
      q ∈ lookupUnused (warnings.foldl maybeAddUnusedDependency m) f ↔
        q ∈ lookupUnused m f ∨ (⟨f, .unusedImport q⟩ : Warning) ∈ warnings := by
  intro ws
  induction ws with
  | nil => simp
  | cons w rest ih =>
    intro m
    rw [List.foldl_cons, ih]
    obtain ⟨fn, cause⟩ := w
    cases cause with
    | noSyntax => simp [maybeAddUnusedDependency]
    | other => simp [maybeAddUnusedDependency]
    | unusedImport imp =>
      by_cases hf : f = fn
      · subst hf
        simp only [maybeAddUnusedDependency, lookupUnused_updateUnusedMap_self,
          mem_insertPath, List.mem_cons, Warning.mk.injEq, WarningCause.unusedImport.injEq,
          true_and]
        tauto
      · simp only [maybeAddUnusedDependency, lookupUnused_updateUnusedMap_other fn imp f hf,
          List.mem_cons, Warning.mk.injEq, WarningCause.unusedImport.injEq]
        tauto

theorem nodup_lookupUnused_foldl (f : String) :
    ∀ (warnings : List Warning) (m : List (String × List String)),
      (∀ g, (lookupUnused m g).Nodup) →
      (lookupUnused (warnings.foldl maybeAddUnusedDependency m) f).Nodup := by
  intro ws
  induction ws with
  | nil => intro m hm; exact hm f
  | cons w rest ih =>
    intro m hm
    rw [List.foldl_cons]
    apply ih
    intro g
    obtain ⟨fn, cause⟩ := w
    cases cause with
    | noSyntax => exact hm g
    | other => exact hm g
    | unusedImport imp =>
      simp only [maybeAddUnusedDependency]
      by_cases hg : g = fn
      · subst hg
        rw [lookupUnused_updateUnusedMap_self]
        exact nodup_insertPath _ _ (hm g)
      · rw [lookupUnused_updateUnusedMap_other fn imp g hg]
        exact hm g

theorem mem_foldl_maybeAddSyntaxUnspecified (q : String) :
    ∀ (warnings : List Warning) (s : List String),
      q ∈ warnings.foldl maybeAddSyntaxUnspecified s ↔
        q ∈ s ∨ (⟨q, .noSyntax⟩ : Warning) ∈ warnings := by
  intro ws
  induction ws with
  | nil => simp
  | cons w rest ih =>
    intro s
    rw [List.foldl_cons, ih]
    obtain ⟨fn, cause⟩ := w
    cases cause with
    | unusedImport imp => simp [maybeAddSyntaxUnspecified]
    | other => simp [maybeAddSyntaxUnspecified]
    | noSyntax =>
      simp only [maybeAddSyntaxUnspecified, mem_insertPath, List.mem_cons, Warning.mk.injEq,
        and_true]
      constructor
      · rintro (h | h)
        · rcases h with h | h
          · exact Or.inl h
          · exact Or.inr (Or.inl h)
        · exact Or.inr (Or.inr h)
      · rintro (h | h)
        · exact Or.inl (Or.inl h)
        · rcases h with h | h
          · exact Or.inl (Or.inr h)
          · exact Or.inr h

theorem classifyWarnings_fold :
    ∀ (warnings : List Warning) (s : List String) (m : List (String × List String)),
      warnings.foldl
        (fun acc w => (maybeAddSyntaxUnspecified acc.1 w, maybeAddUnusedDependency acc.2 w))
        (s, m) =
      (warnings.foldl maybeAddSyntaxUnspecified s, warnings.foldl maybeAddUnusedDependency m) := by
  intro ws
  induction ws with
  | nil => intro s m; rfl
  | cons w rest ih => intro s m; rw [List.foldl_cons, List.foldl_cons, List.foldl_cons, ih]

/-! ### Claim C7: classification is a pure partition -/

/-- C7: the warning classification is a pure partition: a diagnostic matching
neither specialization leaves both outputs unchanged; per-file unused sets
are deduplicated by import path; an import path is recorded for a file
exactly when some unused-import warning for that file names it (so repeated
warnings accumulate into the same single per-file set); and a file is
classified syntax-unspecified exactly when some no-syntax warning names it. -/
theorem c7_classification_pure_partition :
    (∀ (s : List String) (m : List (String × List String)) (w : Warning),
        w.cause = .other →
        maybeAddSyntaxUnspecified s w = s ∧ maybeAddUnusedDependency m w = m) ∧
    (∀ (warnings : List Warning) (f : String),
        (lookupUnused (classifyWarnings warnings).2 f).Nodup) ∧
    (∀ (warnings : List Warning) (f q : String),
        q ∈ lookupUnused (classifyWarnings warnings).2 f ↔
          (⟨f, .unusedImport q⟩ : Warning) ∈ warnings) ∧
    (∀ (warnings : List Warning) (q : String),
        q ∈ (classifyWarnings warnings).1 ↔ (⟨q, .noSyntax⟩ : Warning) ∈ warnings) := by
  refine ⟨?_, ?_, ?_, ?_⟩
  · intro s m w hw
    obtain ⟨fn, cause⟩ := w
    cases cause with
    | other => exact ⟨rfl, rfl⟩
    | noSyntax => simp at hw
    | unusedImport imp => simp at hw
  · intro warnings f
    rw [classifyWarnings, classifyWarnings_fold]
    exact nodup_lookupUnused_foldl f warnings [] (fun g => by simp [lookupUnused])
  · intro warnings f q
    rw [classifyWarnings, classifyWarnings_fold]
    rw [mem_foldl_maybeAddUnusedDependency]
    simp [lookupUnused]
  · intro warnings q
    rw [classifyWarnings, classifyWarnings_fold]
    rw [mem_foldl_maybeAddSyntaxUnspecified]
    simp

/-- Witness for C7 at concrete inputs: an unmatched diagnostic is ignored,
and two unused-import warnings for one file accumulate, deduplicated. -/
theorem c7_witness :
    ((⟨"x.proto", WarningCause.other⟩ : Warning).cause = .other ∧
      maybeAddSyntaxUnspecified ["s.proto"] ⟨"x.proto", .other⟩ = ["s.proto"] ∧
      maybeAddUnusedDependency [("x.proto", ["d.proto"])] ⟨"x.proto", .other⟩ =
        [("x.proto", ["d.proto"])]) ∧
    lookupUnused
        (classifyWarnings
          [⟨"x.proto", .unusedImport "a.proto"⟩, ⟨"x.proto", .unusedImport "b.proto"⟩,
            ⟨"x.proto", .unusedImport "a.proto"⟩]).2 "x.proto" = ["a.proto", "b.proto"] :=
  ⟨⟨rfl,
    c7_classification_pure_partition.1 ["s.proto"] [("x.proto", ["d.proto"])]
      ⟨"x.proto", .other⟩ rfl⟩,
   by decide⟩

/-! ### Claim C9: InfoForSpec never yields an Info -/

/-- C9: for every Spec, InfoForSpec returns a nil Info and a non-nil error:
a validation failure is surfaced verbatim, and successful validation still
yields the errors.New("TODO") placeholder. -/
theorem c9_infoForSpec_never_returns_info
    (urlParseHost : String → Except String String)
    (spdxHasLicenseID : String → Bool) (spec : Spec) :
    (InfoForSpec urlParseHost spdxHasLicenseID spec).1 = none ∧
    (InfoForSpec urlParseHost spdxHasLicenseID spec).2 ≠ none ∧
    (∀ e, ValidateSpec urlParseHost spdxHasLicenseID spec = some e →
      (InfoForSpec urlParseHost spdxHasLicenseID spec).2 = some e) ∧
    (ValidateSpec urlParseHost spdxHasLicenseID spec = none →
      (InfoForSpec urlParseHost spdxHasLicenseID spec).2 = some (.message "TODO")) := by
  rw [InfoForSpec]
  cases hval : ValidateSpec urlParseHost spdxHasLicenseID spec with
  | none =>
    refine ⟨rfl, by simp, ?_, ?_⟩
    · intro e he
      exact absurd he (by simp)
    · intro _
      rfl
  | some e =>
    refine ⟨rfl, by simp, ?_, ?_⟩
    · intro e' he'
      exact he'
    · intro h
      exact absurd h (by simp)

/-- Witness for C9 at a concrete Spec (all fields empty, trivial external
URL parser and SPDX table): validation succeeds and the TODO error comes
back with no Info. -/
theorem c9_witness :
    (InfoForSpec (fun _ => .ok "host") (fun _ => true) ⟨"", "", "", "", "", ""⟩).1 = none ∧
    (InfoForSpec (fun _ => .ok "host") (fun _ => true) ⟨"", "", "", "", "", ""⟩).2 ≠ none :=
  ⟨(c9_infoForSpec_never_returns_info _ _ _).1, (c9_infoForSpec_never_returns_info _ _ _).2.1⟩

/-! ### Claim C10: nil receivers return nil, nil -/

/-- C10: a nil ProtoFileSpec receiver makes ToFileDescriptors return a nil
slice and nil error, bypassing validation; a nil RequestSpec receiver makes
ToRequest return a nil Request and nil error. -/
theorem c10_nil_receivers
    {α ρ : Type}
    (newOptions : List (String × String) → Except GoErr α)
    (compilerCompile : List String → List String → CompileOutcome)
    (newRequest : Option (List FileDescriptorV1) → α → Except GoErr ρ) :
    ToFileDescriptors compilerCompile none = (none, none) ∧
    ToRequest newOptions compilerCompile newRequest none = (none, none) :=
  ⟨rfl, rfl⟩

/-! ### Claim C5: a compiler failure aborts the whole compile -/

/-- C5: when the external compiler invocation fails — which, per its
contract, is what an unresolvable requested file, an unresolvable
transitive dependency, or a failed symbol link produces — compile returns a nil descriptor
slice together with that non-nil error: no partial descriptors reach the
caller. -/
theorem c5_compiler_failure_aborts
    (compilerCompile : List String → List String → CompileOutcome)
    (dirPaths filePaths : List String) (e : CompilerErr)
    (h : compilerCompile (fromSlashPaths dirPaths) (fromSlashPaths filePaths) =
      CompileOutcome.failure e) :
    compile compilerCompile dirPaths filePaths = (none, some (.compiler e)) := by
  rw [compile]
  rw [h]

/-- Witness for C5: a compiler that reports x.proto as unresolvable makes
compile return no descriptors and the import-not-found error. -/
theorem c5_witness :
    compile (fun _ _ => CompileOutcome.failure (.importNotFound "x.proto"))
        ["proto"] ["x.proto"] =
      (none, some (.compiler (.importNotFound "x.proto"))) :=
  c5_compiler_failure_aborts _ ["proto"] ["x.proto"] _ rfl

/-! ### Claim C6: empty DirPaths or FilePaths fail before compilation -/

/-- C6: a present ProtoFileSpec with empty DirPaths or empty FilePaths makes
ToFileDescriptors return a validation error and no descriptors, and the
result does not depend on the external compiler: no compilation work
happens. -/
theorem c6_empty_spec_fails_fast
    (protoFileSpec : ProtoFileSpec)
    (h : protoFileSpec.DirPaths = [] ∨ protoFileSpec.FilePaths = []) :
    (∀ cc cc', ToFileDescriptors cc (some protoFileSpec) =
        ToFileDescriptors cc' (some protoFileSpec)) ∧
    ∀ cc, (ToFileDescriptors cc (some protoFileSpec)).1 = none ∧
      ∃ msg, (ToFileDescriptors cc (some protoFileSpec)).2 = some (.message msg) := by
  have hval : ∃ msg, validateProtoFileSpec protoFileSpec = some (.message msg) := by
    rcases h with h | h
    · exact ⟨_, by rw [validateProtoFileSpec, if_pos (by rw [h]; rfl)]⟩
    · rw [validateProtoFileSpec]
      by_cases hd : protoFileSpec.DirPaths.length = 0
      · exact ⟨_, by rw [if_pos hd]⟩
      · exact ⟨_, by rw [if_neg hd, if_pos (by rw [h]; rfl)]⟩
  obtain ⟨msg, hmsg⟩ := hval
  refine ⟨?_, ?_⟩
  · intro cc cc'
    rw [ToFileDescriptors, ToFileDescriptors, hmsg]
  · intro cc
    rw [ToFileDescriptors, hmsg]
    exact ⟨rfl, msg, rfl⟩

/-- Witness for C6 at a concrete spec with no DirPaths. -/
theorem c6_witness :
    ((⟨[], ["x.proto"]⟩ : ProtoFileSpec).DirPaths = [] ∨
      (⟨[], ["x.proto"]⟩ : ProtoFileSpec).FilePaths = []) ∧
    ∀ cc, (ToFileDescriptors cc (some ⟨[], ["x.proto"]⟩)).1 = none ∧
      ∃ msg, (ToFileDescriptors cc (some ⟨[], ["x.proto"]⟩)).2 = some (.message msg) :=
  ⟨Or.inl rfl, (c6_empty_spec_fails_fast ⟨[], ["x.proto"]⟩ (Or.inl rfl)).2⟩

/-! ### Claim C4: unused-dependency index computation -/

/-- The scanning loop records exactly the indexed dependencies whose path
lies in the unused set, in scan order, keeping each position (offset by the
running index). -/
theorem unusedIndexLoop_eq (unused : List String) :
    ∀ (deps : List String) (i : Nat),
      unusedIndexLoop deps unused i =
        ((List.enumFrom i deps).filter (fun p => decide (p.2 ∈ unused))).map
          (fun p => int32OfNat p.1) := by
  intro deps
  induction deps with
  | nil => intro i; simp [unusedIndexLoop]
  | cons d rest ih =>
    intro i
    rw [unusedIndexLoop, List.enumFrom_cons, List.filter_cons]
    by_cases hd : d ∈ unused
    · rw [if_pos hd, if_pos (decide_eq_true hd), List.map_cons, ih (i + 1)]
    · rw [if_neg hd, if_neg (by simp [hd]), ih (i + 1)]

/-- C4: the unused-dependency indexes are computed by scanning the file's
declared dependency list in order (here: its enumeration from position 0)
and recording each position whose import path is in the unused set; for
dependency list [a, b, c] with unused set {b} the result is [1]; and an
empty unused set yields the empty-length sequence. -/
theorem c4_unused_dependency_indexes
    (nm a b c : String) (hab : a ≠ b) (hcb : c ≠ b) :
    (∀ (fileDescriptorProto : FileDescriptorProto) (unused : List String),
      unusedDependencyIndexesForFilePathToUnusedDependencyFilePaths
          fileDescriptorProto unused =
        ((fileDescriptorProto.dependency.enum.filter
          (fun p => decide (p.2 ∈ unused))).map (fun p => int32OfNat p.1))) ∧
    unusedDependencyIndexesForFilePathToUnusedDependencyFilePaths
      ⟨nm, [a, b, c]⟩ [b] = [1] ∧
    ∀ fileDescriptorProto : FileDescriptorProto,
      unusedDependencyIndexesForFilePathToUnusedDependencyFilePaths
        fileDescriptorProto [] = [] := by
  refine ⟨?_, ?_, ?_⟩
  · intro proto unused
    cases unused with
    | nil =>
      rw [unusedDependencyIndexesForFilePathToUnusedDependencyFilePaths]
      simp
    | cons u us =>
      rw [unusedDependencyIndexesForFilePathToUnusedDependencyFilePaths,
        if_neg (by simp), unusedIndexLoop_eq, List.enum]
  · rw [unusedDependencyIndexesForFilePathToUnusedDependencyFilePaths, if_neg (by simp)]
    rw [unusedIndexLoop, if_neg (by simp [hab]), unusedIndexLoop,
      if_pos (by simp), unusedIndexLoop, if_neg (by simp [hcb]), unusedIndexLoop]
    rw [int32OfNat]
    norm_num
  · intro proto
    rw [unusedDependencyIndexesForFilePathToUnusedDependencyFilePaths]
    simp

/-- Witness for C4 at concrete distinct dependency paths. -/
theorem c4_witness :
    ("a.proto" : String) ≠ "b.proto" ∧ ("c.proto" : String) ≠ "b.proto" ∧
    unusedDependencyIndexesForFilePathToUnusedDependencyFilePaths
        ⟨"x.proto", ["a.proto", "b.proto", "c.proto"]⟩ ["b.proto"] = [1] :=
  ⟨by decide, by decide,
    (c4_unused_dependency_indexes "x.proto" "a.proto" "b.proto" "c.proto"
      (by decide) (by decide)).2.1⟩

/-! ### Claim C3: isImport marks exactly the non-requested files -/

/-- C3: in every successful compile, a descriptor's isImport is false if and
only if its compiler-reported name is among the requested file paths as
normalized by the code (FromSlash, Clean, then ToSlash applied to the
original caller-supplied path strings). -/
theorem c3_isImport_iff_requested
    (compilerCompile : List String → List String → CompileOutcome)
    (dirPaths filePaths : List String) (out : List FileDescriptorV1)
    (h : compile compilerCompile dirPaths filePaths = (some out, none)) :
    ∀ d ∈ out, (d.isImport = false ↔
      d.fileDescriptorProto.name ∈ (fromSlashPaths filePaths).map toSlash) := by
  intro d hd
  rw [compile] at h
  cases hcc : compilerCompile (fromSlashPaths dirPaths) (fromSlashPaths filePaths) with
  | failure e => rw [hcc] at h; cases h
  | success files warnings =>
    rw [hcc] at h
    have hout : annotateFileDescriptors ((fromSlashPaths filePaths).map toSlash)
        (classifyWarnings warnings).1 (classifyWarnings warnings).2
        (fileDescriptorSetForFileDescriptors files) = out := by
      injection h with h1 h2
      injection h1
    rw [← hout] at hd
    rw [annotateFileDescriptors] at hd
    rw [List.mem_map] at hd
    obtain ⟨proto, hp, rfl⟩ := hd
    simp

/-- Witness for C3: a compiler yielding one linked file for the requested
path; its descriptor is not an import and its name is among the normalized
requested paths. -/
theorem c3_witness :
    compile (fun _ _ => CompileOutcome.success [.mk "x.proto" []] []) ["."] ["x.proto"] =
      (some [⟨⟨"x.proto", []⟩, false, false, []⟩], none) ∧
    ∀ d ∈ [(⟨⟨"x.proto", []⟩, false, false, []⟩ : FileDescriptorV1)],
      (d.isImport = false ↔
        d.fileDescriptorProto.name ∈ (fromSlashPaths ["x.proto"]).map toSlash) :=
  ⟨by decide,
    c3_isImport_iff_requested (fun _ _ => CompileOutcome.success [.mk "x.proto" []] [])
      ["."] ["x.proto"] _ (by decide)⟩

/-! ### Claim C8: determinism and map-order independence -/

/-- A permutation of the unused set leaves the computed index sequence
unchanged: the set is consulted only through its size-zero test and through
membership. -/
theorem unusedIndexes_perm (u1 u2 : List String) (hperm : List.Perm u1 u2) :
    ∀ fileDescriptorProto : FileDescriptorProto,
      unusedDependencyIndexesForFilePathToUnusedDependencyFilePaths fileDescriptorProto u1 =
        unusedDependencyIndexesForFilePathToUnusedDependencyFilePaths fileDescriptorProto u2 := by
  intro proto
  have hlen : u1.length = u2.length := hperm.length_eq
  have hloop : ∀ (deps : List String) (i : Nat),
      unusedIndexLoop deps u1 i = unusedIndexLoop deps u2 i := by
    intro deps
    induction deps with
    | nil => intro i; rfl
    | cons d rest ih =>
      intro i
      rw [unusedIndexLoop, unusedIndexLoop]
      by_cases hd : d ∈ u1
      · rw [if_pos hd, if_pos (hperm.mem_iff.mp hd), ih]
      · rw [if_neg hd, if_neg (fun hcon => hd (hperm.mem_iff.mpr hcon)), ih]
  rw [unusedDependencyIndexesForFilePathToUnusedDependencyFilePaths,
    unusedDependencyIndexesForFilePathToUnusedDependencyFilePaths, hlen]
  by_cases h2 : u2.length = 0
  · rw [if_pos h2, if_pos h2]
  · rw [if_neg h2, if_neg h2, hloop]

/-- Membership in a list is consulted through contains; permutations agree. -/
theorem contains_perm (l1 l2 : List String) (hperm : List.Perm l1 l2) (a : String) :
    l1.contains a = l2.contains a := by
  by_cases ha : a ∈ l1
  · have ha2 : a ∈ l2 := hperm.mem_iff.mp ha
    simp [ha, ha2]
  · have ha2 : a ∉ l2 := fun hcon => ha (hperm.mem_iff.mpr hcon)
    simp [ha, ha2]

/-- C8: the pipeline is deterministic. Two runs of compile on the same
inputs and the same external compiler agree, and the annotation step reads
the requested-path set, the syntax-unspecified set and the per-file
unused-dependency sets only through membership, so replacing any of them by
a permutation — as a randomized Go map iteration or storage order would —
leaves the assembled descriptor sequence unchanged. -/
theorem c8_determinism
    (compilerCompile : List String → List String → CompileOutcome)
    (dirPaths filePaths : List String)
    (set1 set2 syn1 syn2 : List String) (m1 m2 : List (String × List String))
    (protos : List FileDescriptorProto)
    (hset : List.Perm set1 set2) (hsyn : List.Perm syn1 syn2)
    (hm : ∀ k, List.Perm (lookupUnused m1 k) (lookupUnused m2 k)) :
    compile compilerCompile dirPaths filePaths = compile compilerCompile dirPaths filePaths ∧
    annotateFileDescriptors set1 syn1 m1 protos = annotateFileDescriptors set2 syn2 m2 protos := by
  refine ⟨rfl, ?_⟩
  rw [annotateFileDescriptors, annotateFileDescriptors]
  apply List.map_congr_left
  intro proto hp
  have h1 : set1.contains proto.name = set2.contains proto.name := contains_perm _ _ hset _
  have h2 : syn1.contains proto.name = syn2.contains proto.name := contains_perm _ _ hsyn _
  have h3 := unusedIndexes_perm _ _ (hm proto.name) proto
  rw [h1, h2, h3]

/-- Witness for C8: concrete permuted classifier structures produce the same
annotated descriptors. -/
theorem c8_witness :
    List.Perm ["a", "b"] ["b", "a"] ∧
    annotateFileDescriptors ["a", "b"] ["s"] [("x.proto", ["d", "e"])]
        [⟨"x.proto", ["d", "e"]⟩] =
      annotateFileDescriptors ["b", "a"] ["s"] [("x.proto", ["e", "d"])]
        [⟨"x.proto", ["d", "e"]⟩] :=
  ⟨by decide,
    (c8_determinism (fun _ _ => CompileOutcome.failure (.otherFailure "unused")) [] []
      ["a", "b"] ["b", "a"] ["s"] ["s"] [("x.proto", ["d", "e"])] [("x.proto", ["e", "d"])]
      [⟨"x.proto", ["d", "e"]⟩] (by decide) (by decide)
      (fun k => by
        by_cases hk : k = "x.proto"
        · subst hk
          simp only [lookupUnused]
          decide
        · simp only [lookupUnused, if_neg (fun h : "x.proto" = k => hk h.symm)]
          exact List.Perm.refl _)).2⟩

/-! ### Structural lemmas about linked file trees -/

@[simp]
theorem FileDescriptor.path_mk (p : String) (imps : List FileDescriptor) :
    (FileDescriptor.mk p imps).path = p := rfl

@[simp]
theorem FileDescriptor.imports_mk (p : String) (imps : List FileDescriptor) :
    (FileDescriptor.mk p imps).imports = imps := rfl

theorem FileDescriptor.strongInduction {motive : FileDescriptor → Prop}
    (step : ∀ p imps, (∀ g, g ∈ imps → motive g) → motive (FileDescriptor.mk p imps)) :
    ∀ f, motive f := by
  have key : ∀ (n : Nat) (f : FileDescriptor), sizeOf f ≤ n → motive f := by
    intro n
    induction n with
    | zero =>
      intro f hf
      cases f with
      | mk p imps =>
        have h2 : sizeOf (FileDescriptor.mk p imps) = 1 + sizeOf p + sizeOf imps := by simp
        omega
    | succ n ih =>
      intro f hf
      cases f with
      | mk p imps =>
        apply step
        intro g hg
        apply ih
        have h1 : sizeOf g < sizeOf imps := List.sizeOf_lt_of_mem hg
        have h2 : sizeOf (FileDescriptor.mk p imps) = 1 + sizeOf p + sizeOf imps := by simp
        omega
  intro f
  exact key (sizeOf f) f (Nat.le_refl _)

theorem self_mem_nodes (f : FileDescriptor) : f ∈ f.nodes := by
  cases f with
  | mk p imps =>
    rw [FileDescriptor.nodes]
    exact List.mem_cons_self _ _

theorem mem_nodesList_of_mem_nodes :
    ∀ (l : List FileDescriptor) (g : FileDescriptor), g ∈ l →
      ∀ m, m ∈ g.nodes → m ∈ nodesList l := by
  intro l
  induction l with
  | nil => intro g hg; cases hg
  | cons f fs ih =>
    intro g hg m hm
    rw [nodesList, List.mem_append]
    rcases List.mem_cons.mp hg with rfl | hg
    · exact Or.inl hm
    · exact Or.inr (ih g hg m hm)

theorem mem_nodesList_iff (l : List FileDescriptor) (m : FileDescriptor) :
    m ∈ nodesList l ↔ ∃ g, g ∈ l ∧ m ∈ g.nodes := by
  induction l with
  | nil => simp [nodesList]
  | cons f fs ih =>
    rw [nodesList, List.mem_append, ih]
    constructor
    · rintro (h | ⟨g, hg, hm⟩)
      · exact ⟨f, List.mem_cons_self _ _, h⟩
      · exact ⟨g, List.mem_cons_of_mem _ hg, hm⟩
    · rintro ⟨g, hg, hm⟩
      rcases List.mem_cons.mp hg with rfl | hg
      · exact Or.inl hm
      · exact Or.inr ⟨g, hg, hm⟩

theorem roots_mem_nodesList (l : List FileDescriptor) (f : FileDescriptor) (hf : f ∈ l) :
    f ∈ nodesList l :=
  mem_nodesList_of_mem_nodes l f hf f (self_mem_nodes f)

theorem child_mem_nodes :
    ∀ f : FileDescriptor, ∀ n, n ∈ f.nodes → ∀ g, g ∈ n.imports → g ∈ f.nodes := by
  apply FileDescriptor.strongInduction
  intro p imps ih n hn g hg
  rw [FileDescriptor.nodes] at hn ⊢
  rcases List.mem_cons.mp hn with rfl | hn
  · rw [FileDescriptor.imports_mk] at hg
    exact List.mem_cons_of_mem _ (mem_nodesList_of_mem_nodes imps g hg g (self_mem_nodes g))
  · obtain ⟨t, ht, hnt⟩ := (mem_nodesList_iff imps n).mp hn
    exact List.mem_cons_of_mem _
      (mem_nodesList_of_mem_nodes imps t ht g (ih t ht n hnt g hg))

theorem child_mem_nodesList (files : List FileDescriptor) (n : FileDescriptor)
    (hn : n ∈ nodesList files) (g : FileDescriptor) (hg : g ∈ n.imports) :
    g ∈ nodesList files := by
  obtain ⟨r, hr, hnr⟩ := (mem_nodesList_iff files n).mp hn
  exact mem_nodesList_of_mem_nodes files r hr g (child_mem_nodes r n hnr g hg)

theorem closed_subtree (files : List FileDescriptor) (S : List String)
    (hclosed : ∀ n, n ∈ nodesList files → n.path ∈ S → ∀ g, g ∈ n.imports → g.path ∈ S) :
    ∀ f, f ∈ nodesList files → f.path ∈ S → ∀ m, m ∈ f.nodes → m.path ∈ S := by
  apply FileDescriptor.strongInduction
  intro p imps ih hmem hpath m hm
  rw [FileDescriptor.nodes] at hm
  rcases List.mem_cons.mp hm with rfl | hm
  · exact hpath
  · obtain ⟨g, hg, hmg⟩ := (mem_nodesList_iff imps m).mp hm
    have hgmem : g ∈ nodesList files :=
      child_mem_nodesList files (FileDescriptor.mk p imps) hmem g
        (by rw [FileDescriptor.imports_mk]; exact hg)
    have hgpath : g.path ∈ S :=
      hclosed (FileDescriptor.mk p imps) hmem hpath g
        (by rw [FileDescriptor.imports_mk]; exact hg)
    exact ih g hg hgmem hgpath m hmg

theorem acyclicAuxList_mem (pending : List String) :
    ∀ (l : List FileDescriptor), acyclicAuxList pending l = true →
      ∀ g, g ∈ l → acyclicAux pending g = true := by
  intro l
  induction l with
  | nil => intro _ g hg; cases hg
  | cons f fs ih =>
    intro h g hg
    rw [acyclicAuxList, Bool.and_eq_true] at h
    rcases List.mem_cons.mp hg with rfl | hg
    · exact h.1
    · exact ih h.2 g hg

theorem acyclicAux_path_not_mem (pending : List String) (f : FileDescriptor)
    (h : acyclicAux pending f = true) : f.path ∉ pending := by
  cases f with
  | mk p imps =>
    rw [acyclicAux, Bool.and_eq_true] at h
    have h1 := h.1
    simp only [Bool.not_eq_eq_eq_not, Bool.not_true] at h1
    rw [FileDescriptor.path_mk]
    intro hcon
    simp at h1
    exact h1 hcon

/-! ### The traversal invariant is preserved -/

theorem depsOrdered_append (rs : List FileDescriptorProto) (pr : FileDescriptorProto)
    (hrs : DepsOrdered rs) (hpr : ∀ d, d ∈ pr.dependency → d ∈ protoNames rs) :
    DepsOrdered (rs ++ [pr]) := by
  intro i hi d hd
  have hlen : (rs ++ [pr]).length = rs.length + 1 := by
    rw [List.length_append, List.length_singleton]
  by_cases hlt : i < rs.length
  · have hget : (rs ++ [pr]).get ⟨i, hi⟩ = rs.get ⟨i, hlt⟩ := List.get_append i hlt
    rw [hget] at hd
    have := hrs i hlt d hd
    rw [List.take_append_of_le_length (Nat.le_of_lt hlt)]
    exact this
  · have hieq : i = rs.length := by omega
    subst hieq
    have hget : (rs ++ [pr]).get ⟨rs.length, hi⟩ = pr := by
      rw [List.get_eq_getElem]
      exact List.getElem_concat_length rs pr rs.length rfl hi
    rw [hget] at hd
    rw [List.take_left]
    exact hpr d hd

theorem visitList_spec (files : List FileDescriptor) :
    ∀ (l : List FileDescriptor), (∀ g, g ∈ l → VisitSpec files g) →
    ∀ P acc, (∀ g, g ∈ l → g ∈ nodesList files) → acyclicAuxList P l = true →
      TravInv files P acc →
      TravInv files P (toFileDescriptorProtoSliceList l acc) ∧
      (∃ t, (toFileDescriptorProtoSliceList l acc).1 = acc.1 ++ t) ∧
      (∀ q, q ∈ acc.2 → q ∈ (toFileDescriptorProtoSliceList l acc).2) ∧
      (∀ g, g ∈ l → g.path ∈ (toFileDescriptorProtoSliceList l acc).2) := by
  intro l
  induction l with
  | nil =>
    intro _ P acc _ _ hinv
    simp only [toFileDescriptorProtoSliceList]
    exact ⟨hinv, ⟨[], by simp⟩, fun q hq => hq, fun g hg => absurd hg (List.not_mem_nil g)⟩
  | cons f fs ih =>
    intro hvs P acc hmem hacyc hinv
    rw [acyclicAuxList, Bool.and_eq_true] at hacyc
    obtain ⟨hacf, hacfs⟩ := hacyc
    obtain ⟨hinv1, ⟨t1, ht1⟩, hmono1, hpath1⟩ :=
      hvs f (List.mem_cons_self f fs) P acc (hmem f (List.mem_cons_self f fs)) hacf hinv
    obtain ⟨hinv2, ⟨t2, ht2⟩, hmono2, hpath2⟩ :=
      ih (fun g hg => hvs g (List.mem_cons_of_mem f hg)) P (toFileDescriptorProtoSlice f acc)
        (fun g hg => hmem g (List.mem_cons_of_mem f hg)) hacfs hinv1
    simp only [toFileDescriptorProtoSliceList]
    refine ⟨hinv2, ⟨t1 ++ t2, ?_⟩, fun q hq => hmono2 q (hmono1 q hq), ?_⟩
    · rw [ht2, ht1, List.append_assoc]
    · intro g hg
      rcases List.mem_cons.mp hg with rfl | hg
      · exact hmono2 _ hpath1
      · exact hpath2 g hg

theorem visit_spec_all (files : List FileDescriptor) (hcons : Consistent files) :
    ∀ f, VisitSpec files f := by
  apply FileDescriptor.strongInduction
  intro p imps ih
  unfold VisitSpec
  intro P acc hmem hacyc hinv
  simp only [toFileDescriptorProtoSlice]
  by_cases hp : p ∈ acc.2
  · simp only [if_pos hp]
    exact ⟨hinv, ⟨[], by simp⟩, fun q hq => hq, by rw [FileDescriptor.path_mk]; exact hp⟩
  · simp only [if_neg hp]
    have hnames : p ∉ protoNames acc.1 := fun h => hp ((hinv.mem_iff p).mpr (Or.inl h))
    have hP : p ∉ P := fun h => hp ((hinv.mem_iff p).mpr (Or.inr h))
    rw [acyclicAux, Bool.and_eq_true] at hacyc
    obtain ⟨hcont, hacycL⟩ := hacyc
    have hinv1 : TravInv files (p :: P) (acc.1, p :: acc.2) := by
      refine ⟨?_, ?_, hinv.ordered, hinv.closed, hinv.inRange⟩
      · intro q
        show q ∈ p :: acc.2 ↔ q ∈ protoNames acc.1 ∨ q ∈ p :: P
        rw [List.mem_cons, List.mem_cons, hinv.mem_iff q]
        tauto
      · show (protoNames acc.1 ++ p :: P).Nodup
        apply (List.perm_middle.nodup_iff).mpr
        rw [List.nodup_cons]
        refine ⟨?_, hinv.nodup⟩
        rw [List.mem_append]
        rintro (h | h)
        · exact hnames h
        · exact hP h
    have himps_mem : ∀ g, g ∈ imps → g ∈ nodesList files := by
      intro g hg
      exact child_mem_nodesList files (FileDescriptor.mk p imps) hmem g
        (by rw [FileDescriptor.imports_mk]; exact hg)
    obtain ⟨hinv2, ⟨t2, ht2⟩, hmono2, hpaths2⟩ :=
      visitList_spec files imps (fun g hg => ih g hg) (p :: P) (acc.1, p :: acc.2)
        himps_mem hacycL hinv1
    set X := toFileDescriptorProtoSliceList imps (acc.1, p :: acc.2) with hX
    set pr := protoFromFileDescriptor (FileDescriptor.mk p imps) with hpr
    have hdeps : ∀ g, g ∈ imps → g.path ∈ protoNames X.1 := by
      intro g hg
      have hgacyc : acyclicAux (p :: P) g = true :=
        acyclicAuxList_mem (p :: P) imps hacycL g hg
      have hnot : g.path ∉ p :: P := acyclicAux_path_not_mem (p :: P) g hgacyc
      have hin := hpaths2 g hg
      rcases (hinv2.mem_iff g.path).mp hin with h | h
      · exact h
      · exact absurd h hnot
    have hnames_eq : protoNames (X.1 ++ [pr]) = protoNames X.1 ++ [p] := by
      rw [hpr]
      simp [protoNames, protoFromFileDescriptor]
    have hext : ∀ q, q ∈ protoNames X.1 → q ∈ protoNames (X.1 ++ [pr]) := by
      intro q hq
      rw [hnames_eq, List.mem_append]
      exact Or.inl hq
    refine ⟨⟨?_, ?_, ?_, ?_, ?_⟩, ⟨t2 ++ [pr], ?_⟩, ?_, ?_⟩
    · intro q
      show q ∈ X.2 ↔ q ∈ protoNames (X.1 ++ [pr]) ∨ q ∈ P
      rw [hnames_eq, List.mem_append, List.mem_singleton, hinv2.mem_iff q, List.mem_cons]
      tauto
    · show (protoNames (X.1 ++ [pr]) ++ P).Nodup
      rw [hnames_eq, List.append_assoc, List.singleton_append]
      exact hinv2.nodup
    · show DepsOrdered (X.1 ++ [pr])
      apply depsOrdered_append _ _ hinv2.ordered
      intro d hd
      have hd' : d ∈ imps.map FileDescriptor.path := hd
      obtain ⟨g, hg, rfl⟩ := List.mem_map.mp hd'
      exact hdeps g hg
    · intro pr' hpr' n hn hnpath g hg
      show g.path ∈ protoNames (X.1 ++ [pr])
      rcases List.mem_append.mp hpr' with hold | hnew
      · exact hext _ (hinv2.closed pr' hold n hn hnpath g hg)
      · rw [List.mem_singleton] at hnew
        subst hnew
        have hnp : n.path = p := hnpath
        have himp_eq := hcons n hn (FileDescriptor.mk p imps) hmem
          (by rw [FileDescriptor.path_mk]; exact hnp)
        rw [FileDescriptor.imports_mk] at himp_eq
        have hgmem : g.path ∈ n.imports.map FileDescriptor.path := List.mem_map_of_mem _ hg
        rw [himp_eq] at hgmem
        obtain ⟨g', hg', heq⟩ := List.mem_map.mp hgmem
        rw [← heq]
        exact hext _ (hdeps g' hg')
    · intro pr' hpr'
      rcases List.mem_append.mp hpr' with hold | hnew
      · exact hinv2.inRange pr' hold
      · rw [List.mem_singleton] at hnew
        subst hnew
        exact ⟨FileDescriptor.mk p imps, hmem, rfl⟩
    · show X.1 ++ [pr] = acc.1 ++ (t2 ++ [pr])
      rw [ht2, List.append_assoc]
    · intro q hq
      show q ∈ X.2
      exact hmono2 q (List.mem_cons_of_mem p hq)
    · show (FileDescriptor.mk p imps).path ∈ X.2
      rw [FileDescriptor.path_mk]
      exact hmono2 p (List.mem_cons_self p acc.2)

theorem traversal_main (files : List FileDescriptor)
    (hacyc : acyclicAuxList [] files = true) (hcons : Consistent files) :
    TravInv files [] (toFileDescriptorProtoSliceList files ([], [])) ∧
    ∀ g, g ∈ files → g.path ∈ (toFileDescriptorProtoSliceList files ([], [])).2 := by
  have hinit : TravInv files [] (([] : List FileDescriptorProto), ([] : List String)) := by
    refine ⟨?_, ?_, ?_, ?_, ?_⟩
    · intro q; simp [protoNames]
    · simp [protoNames]
    · intro i hi
      exact absurd hi (by simp)
    · intro pr hpr
      exact absurd hpr (List.not_mem_nil _)
    · intro pr hpr
      exact absurd hpr (List.not_mem_nil _)
  obtain ⟨hinv, _, _, hpaths⟩ :=
    visitList_spec files files (fun g _ => visit_spec_all files hcons g) [] ([], [])
      (fun g hg => roots_mem_nodesList files g hg) hacyc hinit
  exact ⟨hinv, hpaths⟩

/-- The annotation step preserves the underlying proto sequence. -/
theorem annotate_protos (s t : List String) (m : List (String × List String))
    (protos : List FileDescriptorProto) :
    (annotateFileDescriptors s t m protos).map FileDescriptorV1.fileDescriptorProto = protos := by
  rw [annotateFileDescriptors, List.map_map]
  conv_rhs => rw [← List.map_id protos]
  apply List.map_congr_left
  intro a ha
  rfl

/-! ### Claim C1: the descriptor sequence is dependency-first -/

/-- C1: for every successful compile — the external compiler returned linked
files, which are acyclic and identity-consistent by its contract — the
assembled descriptor sequence is dependency-first: each descriptor's
declared dependencies are names of strictly earlier descriptors. -/
theorem c1_dependency_first
    (compilerCompile : List String → List String → CompileOutcome)
    (dirPaths filePaths : List String)
    (files : List FileDescriptor) (warnings : List Warning)
    (hcc : compilerCompile (fromSlashPaths dirPaths) (fromSlashPaths filePaths) =
      CompileOutcome.success files warnings)
    (hacyc : acyclicAuxList [] files = true)
    (hcons : Consistent files) :
    ∃ out, compile compilerCompile dirPaths filePaths = (some out, none) ∧
      DepsOrdered (out.map FileDescriptorV1.fileDescriptorProto) := by
  refine ⟨annotateFileDescriptors ((fromSlashPaths filePaths).map toSlash)
    (classifyWarnings warnings).1 (classifyWarnings warnings).2
    (fileDescriptorSetForFileDescriptors files), ?_, ?_⟩
  · rw [compile, hcc]
  · rw [annotate_protos, fileDescriptorSetForFileDescriptors]
    exact (traversal_main files hacyc hcons).1.ordered

/-- Witness for C1: a two-file chain (a.proto imports b.proto); the compile
succeeds and the output protos are dependency-first. -/
theorem c1_witness :
    ∃ out,
      compile
          (fun _ _ => CompileOutcome.success
            [.mk "a.proto" [.mk "b.proto" []]] [])
          ["."] ["a.proto"] = (some out, none) ∧
      DepsOrdered (out.map FileDescriptorV1.fileDescriptorProto) :=
  c1_dependency_first _ ["."] ["a.proto"] [.mk "a.proto" [.mk "b.proto" []]] []
    rfl (by decide) (by unfold Consistent; decide)

/-! ### Claim C2: exactly-once inclusion -/

/-- C2: for every successful compile, the assembled sequence mentions each
distinct reachable file path exactly once: the emitted names are distinct, a
path occurs among them exactly when it is reachable (transitively) from the
requested roots, and the output length equals the number of distinct
reachable paths. -/
theorem c2_exactly_once
    (compilerCompile : List String → List String → CompileOutcome)
    (dirPaths filePaths : List String)
    (files : List FileDescriptor) (warnings : List Warning)
    (hcc : compilerCompile (fromSlashPaths dirPaths) (fromSlashPaths filePaths) =
      CompileOutcome.success files warnings)
    (hacyc : acyclicAuxList [] files = true)
    (hcons : Consistent files) :
    ∃ out, compile compilerCompile dirPaths filePaths = (some out, none) ∧
      (protoNames (out.map FileDescriptorV1.fileDescriptorProto)).Nodup ∧
      (∀ q, q ∈ protoNames (out.map FileDescriptorV1.fileDescriptorProto) ↔
        q ∈ allPaths files) ∧
      out.length = (allPaths files).dedup.length := by
  obtain ⟨hinv, hroots⟩ := traversal_main files hacyc hcons
  set X := toFileDescriptorProtoSliceList files ([], []) with hXdef
  have h_nodup : (protoNames X.1).Nodup := by
    have h := hinv.nodup
    simpa using h
  have h_mem : ∀ q, q ∈ protoNames X.1 ↔ q ∈ allPaths files := by
    intro q
    constructor
    · intro hq
      obtain ⟨pr, hpr, hname⟩ := List.mem_map.mp hq
      obtain ⟨n, hn, hpn⟩ := hinv.inRange pr hpr
      rw [allPaths]
      rw [← hname, hpn]
      exact List.mem_map_of_mem _ hn
    · intro hq
      have hclosed : ∀ n, n ∈ nodesList files → n.path ∈ protoNames X.1 →
          ∀ g, g ∈ n.imports → g.path ∈ protoNames X.1 := by
        intro n hn hpath g hg
        obtain ⟨pr, hpr, hname⟩ := List.mem_map.mp hpath
        exact hinv.closed pr hpr n hn hname.symm g hg
      have roots_in : ∀ r, r ∈ files → r.path ∈ protoNames X.1 := by
        intro r hr
        have hmem := hroots r hr
        rcases (hinv.mem_iff r.path).mp hmem with h | h
        · exact h
        · cases h
      rw [allPaths] at hq
      obtain ⟨m, hm, rfl⟩ := List.mem_map.mp hq
      obtain ⟨r, hr, hmr⟩ := (mem_nodesList_iff files m).mp hm
      exact closed_subtree files (protoNames X.1) hclosed r
        (roots_mem_nodesList files r hr) (roots_in r hr) m hmr
  refine ⟨annotateFileDescriptors ((fromSlashPaths filePaths).map toSlash)
    (classifyWarnings warnings).1 (classifyWarnings warnings).2
    (fileDescriptorSetForFileDescriptors files), ?_, ?_, ?_, ?_⟩
  · rw [compile, hcc]
  · rw [annotate_protos, fileDescriptorSetForFileDescriptors]
    exact h_nodup
  · intro q
    rw [annotate_protos, fileDescriptorSetForFileDescriptors]
    exact h_mem q
  · rw [annotateFileDescriptors, List.length_map, fileDescriptorSetForFileDescriptors]
    have h1 : X.1.length = (protoNames X.1).length := (List.length_map _ _).symm
    have h2 : (protoNames X.1).length = (protoNames X.1).toFinset.card :=
      (List.toFinset_card_of_nodup h_nodup).symm
    have h3 : (protoNames X.1).toFinset = (allPaths files).toFinset := by
      apply Finset.ext
      intro q
      rw [List.mem_toFinset, List.mem_toFinset]
      exact h_mem q
    have h4 : (allPaths files).toFinset.card = (allPaths files).dedup.length :=
      List.card_toFinset (allPaths files)
    rw [h1, h2, h3, h4]

/-- Witness for C2: a diamond (x imports y and z, both importing w); the
compile succeeds, w is emitted once, and the count matches the four distinct
reachable paths. -/
theorem c2_witness :
    ∃ out,
      compile
          (fun _ _ => CompileOutcome.success
            [.mk "x.proto"
              [.mk "y.proto" [.mk "w.proto" []], .mk "z.proto" [.mk "w.proto" []]]] [])
          ["."] ["x.proto"] = (some out, none) ∧
      (protoNames (out.map FileDescriptorV1.fileDescriptorProto)).Nodup ∧
      (∀ q, q ∈ protoNames (out.map FileDescriptorV1.fileDescriptorProto) ↔
        q ∈ allPaths
          [.mk "x.proto"
            [.mk "y.proto" [.mk "w.proto" []], .mk "z.proto" [.mk "w.proto" []]]]) ∧
      out.length =
        (allPaths
          [.mk "x.proto"
            [.mk "y.proto" [.mk "w.proto" []], .mk "z.proto" [.mk "w.proto" []]]]).dedup.length :=
  c2_exactly_once _ ["."] ["x.proto"]
    [.mk "x.proto" [.mk "y.proto" [.mk "w.proto" []], .mk "z.proto" [.mk "w.proto" []]]] []
    rfl (by decide) (by unfold Consistent; decide)
